import Mathlib

/-!
Verification of the `corehsm` hierarchical state machine library.

The Go source is shallowly embedded: Go maps become association lists
(`alookup` / `ainsert`), the nullable `*State` pointer becomes either the
`root`/`child` constructors (for the parent link) or `Option State` (for
nullable parameters and fields), and the in-place mutation performed by
`Execute` / `TransitionTo` becomes explicit state passing (each operation
returns the updated machine).  A Go nil-pointer dereference (a runtime
panic) is modelled by returning `none` from the operation that would panic.
-/

namespace Corehsm

/-- Association-list lookup keyed by strings; models a read from a Go map.
The list never holds two entries for one key when built by the operations
below, and lookup returns the first entry in any case. -/
def alookup {α : Type} : List (String × α) → String → Option α
  | [], _ => none
  | (k, v) :: t, n => if k = n then some v else alookup t n

/-- Association-list insert-or-overwrite; models a write to a Go map. -/
def ainsert {α : Type} : List (String × α) → String → α → List (String × α)
  | [], n, v => [(n, v)]
  | (k, w) :: t, n, v => if k = n then (n, v) :: t else (k, w) :: ainsert t n v

/-- A node in the state hierarchy (source type `State`): a name plus a parent
pointer.  The Go struct stores `parent *State`; the nil pointer is the
`root` constructor here and a non-nil parent is the `child` constructor, so
the parent chain is finite by construction (the source trusts, and the spec
states, that the hierarchy is an acyclic finite tree). -/
inductive State : Type where
  | root (name : String)
  | child (name : String) (parent : State)
deriving DecidableEq

/-- `NewState` (source): builds an immutable state from a name and an
optional parent. -/
def NewState (name : String) (parent : Option State) : State :=
  match parent with
  | none => .root name
  | some p => .child name p

/-- `State.Name` accessor (source method `Name`). -/
def State.Name : State → String
  | .root n => n
  | .child n _ => n

/-- `State.Parent` accessor (source method `Parent`); `none` is the nil
pointer of a root state. -/
def State.Parent : State → Option State
  | .root _ => none
  | .child _ p => some p

/-- `Command` (source): a name plus positional string arguments. -/
structure Command where
  name : String
  args : List String

/-- `NewCommand` (source). -/
def NewCommand (name : String) (args : List String) : Command :=
  ⟨name, args⟩

/-- `CommandDef` (source): descriptive metadata for a command. -/
structure CommandDef where
  Name : String
  Args : String
  Description : String
deriving DecidableEq

/-- `Result` (source): a handler's output text and optional next state. -/
structure Result where
  Output : String
  NextState : Option State

/-- `Snapshot` (source): the serializable (state name, data) pair. -/
structure Snapshot (T : Type) where
  CurrentStateName : String
  Data : T
deriving DecidableEq

/-- The part of the machine a handler observes.  The Go handler receives the
machine pointer itself; the registry component is omitted here because the
handler type would otherwise be recursive through `Registry`.  The handler
also receives a `context.Context` in Go, which the core only passes through
and never inspects, so it is dropped from the embedding. -/
structure MachineView (T : Type) where
  CurrentState : Option State
  StateStack : List State
  Data : T

/-- What one handler invocation produces: the data payload as it stands when
the handler returns (Go handlers mutate `m.Data` in place through the
machine pointer), the returned `Result`, and an optional domain error
(`none` means success).  Domain errors are opaque to the core and are
modelled as their message strings. -/
structure HandlerOutcome (T : Type) where
  data : T
  result : Result
  error : Option String

/-- `CommandHandlerFunc` (source): the handler signature. -/
def CommandHandlerFunc (T : Type) : Type :=
  MachineView T → Command → HandlerOutcome T

/-- `RegisteredCommand` (source): metadata paired with the handler. -/
structure RegisteredCommand (T : Type) where
  Def : CommandDef
  Handler : CommandHandlerFunc T

/-- `Registry` (source): the name-keyed state table and the state-name-keyed
command-binding table. -/
structure Registry (T : Type) where
  states : List (String × State)
  commandHandlers : List (String × List (String × RegisteredCommand T))

/-- `NewRegistry` (source): both tables start empty. -/
def NewRegistry (T : Type) : Registry T :=
  ⟨[], []⟩

/-- Recursive body of `RegisterState` for a non-nil state: stop if the name
is already present, otherwise insert under the state's name and recurse on
the parent (the source recurses on `state.Parent()`, and a nil parent is a
no-op). -/
def registerStateS {T : Type} (r : Registry T) : State → Registry T
  | .root n =>
      if (alookup r.states n).isSome then r
      else { r with states := ainsert r.states n (.root n) }
  | .child n p =>
      if (alookup r.states n).isSome then r
      else registerStateS { r with states := ainsert r.states n (.child n p) } p

/-- `RegisterState` (source): adds a state and, recursively, all its parents;
a nil state is a no-op. -/
def RegisterState {T : Type} (r : Registry T) : Option State → Registry T
  | none => r
  | some s => registerStateS r s

/-- `RegisterCommand` (source): binds `d.Name` to `(d, handler)` under the
state's name, creating the inner table when absent and overwriting any
previous binding for that name. -/
def RegisterCommand {T : Type} (r : Registry T) (state : State) (d : CommandDef)
    (handler : CommandHandlerFunc T) : Registry T :=
  let inner := (alookup r.commandHandlers state.Name).getD []
  { r with commandHandlers :=
      ainsert r.commandHandlers state.Name (ainsert inner d.Name ⟨d, handler⟩) }

/-- `GetStateByName` (source). -/
def GetStateByName {T : Type} (r : Registry T) (name : String) : Option State :=
  alookup r.states name

/-- The binding consulted at a single state of the chain: the state's own
command table (empty when the state has no entry in `commandHandlers`),
looked up at the command name.  This is the loop body of the source's
`findCommandHandler` and `FindAvailableCommands`. -/
def bindingAt {T : Type} (r : Registry T) (s : State) (cmdName : String) :
    Option (RegisteredCommand T) :=
  alookup ((alookup r.commandHandlers s.Name).getD []) cmdName

/-- The command table of a single state (empty when absent); `bindingAt` is
lookup in this table. -/
def entriesAt {T : Type} (r : Registry T) (s : State) :
    List (String × RegisteredCommand T) :=
  (alookup r.commandHandlers s.Name).getD []

/-- Body of `findCommandHandler` for a non-nil start state: check the state's
own binding, else continue at the parent. -/
def findFromState {T : Type} (r : Registry T) : State → String → Option (CommandHandlerFunc T)
  | .root n, c =>
      match bindingAt r (.root n) c with
      | some rc => some rc.Handler
      | none => none
  | .child n p, c =>
      match bindingAt r (.child n p) c with
      | some rc => some rc.Handler
      | none => findFromState r p c

/-- `findCommandHandler` (source): walk from `state` upward through parent
links and return the first binding found; a nil start state finds nothing. -/
def findCommandHandler {T : Type} (r : Registry T) (state : Option State) (cmdName : String) :
    Option (CommandHandlerFunc T) :=
  match state with
  | none => none
  | some s => findFromState r s cmdName

/-- Inner loop of `FindAvailableCommands` over one state's command table:
skip names already seen, otherwise mark the name seen and collect its
definition.  Returns the final seen set and the collected definitions. -/
def collectEntries {T : Type} (seen : List String) :
    List (String × RegisteredCommand T) → List String × List CommandDef
  | [] => (seen, [])
  | (n, rc) :: t =>
      if n ∈ seen then collectEntries seen t
      else
        let p := collectEntries (n :: seen) t
        (p.1, rc.Def :: p.2)

/-- Outer loop of `FindAvailableCommands`, walking the chain upward while
threading the seen set. -/
def collectAvailableS {T : Type} (r : Registry T) : State → List String → List CommandDef
  | .root n, seen =>
      (collectEntries seen ((alookup r.commandHandlers (State.root n).Name).getD [])).2
  | .child n p, seen =>
      let q := collectEntries seen ((alookup r.commandHandlers (State.child n p).Name).getD [])
      q.2 ++ collectAvailableS r p q.1

/-- The collection phase of `FindAvailableCommands` on an optional state. -/
def collectAvailable {T : Type} (r : Registry T) (os : Option State) (seen : List String) :
    List CommandDef :=
  match os with
  | none => []
  | some s => collectAvailableS r s seen

/-- The comparison `FindAvailableCommands` sorts by (source: `sort.Slice`
with `commands[i].Name < commands[j].Name`).  The source uses an unspecified
comparison sort; because the collected names are pairwise distinct, every
comparison sort produces the same list, so insertion sort by `≤` on names is
an exact model. -/
def cmdDefLe (a b : CommandDef) : Prop :=
  a.Name ≤ b.Name

instance : DecidableRel cmdDefLe :=
  fun a b => inferInstanceAs (Decidable (a.Name ≤ b.Name))

instance : IsTotal CommandDef cmdDefLe :=
  ⟨fun a b => le_total a.Name b.Name⟩

instance : IsTrans CommandDef cmdDefLe :=
  ⟨fun _ _ _ h1 h2 => le_trans h1 h2⟩

/-- `FindAvailableCommands` (source): collect the first definition of every
distinct name along the chain, then sort by name. -/
def FindAvailableCommands {T : Type} (r : Registry T) (os : Option State) : List CommandDef :=
  List.insertionSort cmdDefLe (collectAvailable r os [])

/-- The upward chain of a state, nearest first: exactly the states visited by
the source's `for s := state; s != nil; s = s.Parent()` loops. -/
def stateChain : State → List State
  | .root n => [.root n]
  | .child n p => .child n p :: stateChain p

/-- The upward chain of an optional state, nearest first. -/
def chainOf : Option State → List State
  | none => []
  | some s => stateChain s

/-- `buildStatePath` (source): collect the chain upward, then reverse, giving
the root-to-target path. -/
def buildStatePath (targetState : Option State) : List State :=
  (chainOf targetState).reverse

/-- The error values the core itself produces, plus propagated handler
errors.  The source builds them with `fmt.Errorf`; the constructors carry
exactly the values interpolated into the message. -/
inductive HsmError : Type where
  | stateNotFound (stateName : String)
  | commandNotAvailable (commandName : String) (stateName : String)
  | handlerFailure (message : String)
deriving DecidableEq

/-- `Machine` (source): current state, derived root-to-current path, data
payload, and the borrowed registry. -/
structure Machine (T : Type) where
  CurrentState : Option State
  StateStack : List State
  Data : T
  registry : Registry T

/-- `TransitionTo` (source): unconditionally recompute the path and set the
current state. -/
def TransitionTo {T : Type} (m : Machine T) (newState : Option State) : Machine T :=
  { m with StateStack := buildStatePath newState, CurrentState := newState }

/-- `NewMachine` (source): build a zero-value machine with the given data and
registry, then `TransitionTo` the initial state.  The Go function returns
`(m, error)` with the error always nil; the pair mirrors that. -/
def NewMachine {T : Type} (registry : Registry T) (initialState : Option State)
    (initialData : T) : Machine T × Option HsmError :=
  (TransitionTo
    { CurrentState := none, StateStack := [], Data := initialData, registry := registry }
    initialState, none)

/-- `NewMachineFromSnapshot` (source): resolve the snapshot's state name in
the registry, failing when absent; on success restore the data verbatim and
set the path and current state from the resolved state. -/
def NewMachineFromSnapshot {T : Type} (registry : Registry T) (snapshot : Snapshot T) :
    Except HsmError (Machine T) :=
  match GetStateByName registry snapshot.CurrentStateName with
  | none => .error (.stateNotFound snapshot.CurrentStateName)
  | some initialState =>
      .ok { CurrentState := some initialState,
            StateStack := buildStatePath (some initialState),
            Data := snapshot.Data,
            registry := registry }

/-- `GetSnapshot` (source): pair the current state's name with the data.
When `CurrentState` is nil the source dereferences a nil pointer
(`m.CurrentState.Name()`), a runtime panic, modelled as `none`. -/
def GetSnapshot {T : Type} (m : Machine T) : Option (Snapshot T) :=
  match m.CurrentState with
  | none => none
  | some s => some ⟨s.Name, m.Data⟩

/-- The view of a machine passed to a handler. -/
def Machine.view {T : Type} (m : Machine T) : MachineView T :=
  ⟨m.CurrentState, m.StateStack, m.Data⟩

/-- `Execute` (source): resolve the handler from the current state (failing
with the command-not-available error when absent), run it, keep its data
mutation, propagate its error together with its partial output, and on
success transition exactly when the returned next state is non-nil and its
name differs from the current state's name.  The result is the updated
machine, the output text, and the optional error; `none` models the nil
dereference panic that formatting the not-available message performs when
the current state is nil (and the unreachable nil current state at the
name comparison). -/
def Execute {T : Type} (m : Machine T) (cmd : Command) :
    Option (Machine T × String × Option HsmError) :=
  match findCommandHandler m.registry m.CurrentState cmd.name with
  | none =>
      match m.CurrentState with
      | none => none
      | some cs => some (m, "", some (.commandNotAvailable cmd.name cs.Name))
  | some handler =>
      let hr := handler m.view cmd
      let m' := { m with Data := hr.data }
      match hr.error with
      | some e => some (m', hr.result.Output, some (.handlerFailure e))
      | none =>
          match hr.result.NextState with
          | none => some (m', hr.result.Output, none)
          | some ns =>
              match m.CurrentState with
              | none => none
              | some cs =>
                  if ns.Name ≠ cs.Name then
                    some (TransitionTo m' (some ns), hr.result.Output, none)
                  else
                    some (m', hr.result.Output, none)

/-- `Registry` accessor on the machine (source method `Registry`). -/
def Machine.Registry {T : Type} (m : Machine T) : Registry T :=
  m.registry

/-- Specification-side first match along the chain: the binding of the
closest ancestor (including the state itself) that has one. -/
def chainFind {T : Type} (r : Registry T) (os : Option State) (c : String) :
    Option (RegisteredCommand T) :=
  (chainOf os).findSome? (fun st => bindingAt r st c)

/-- Every binding in the command table is keyed by its definition's name;
`RegisterCommand` keys by `d.Name`, so every registry built by the source's
operations satisfies this. -/
def KeysMatch {T : Type} (r : Registry T) : Prop :=
  ∀ p ∈ r.commandHandlers, ∀ q ∈ p.2, q.2.Def.Name = q.1

/-- Every entry of the state table is keyed by the state's own name;
`RegisterState` keys by `state.Name()`, so every registry built by the
source's operations satisfies this. -/
def StateKeysMatch {T : Type} (r : Registry T) : Prop :=
  ∀ p ∈ r.states, p.2.Name = p.1

/-- The full upward chain of every registered state is registered, with the
exact same state objects.  This is the spec's ancestor-closure invariant for
registries built with globally unique state names. -/
def ChainClosed {T : Type} (r : Registry T) : Prop :=
  ∀ p ∈ r.states, ∀ st ∈ stateChain p.2, alookup r.states st.Name = some st

instance {T : Type} (r : Registry T) : Decidable (KeysMatch r) :=
  inferInstanceAs (Decidable (∀ p ∈ r.commandHandlers, ∀ q ∈ p.2, q.2.Def.Name = q.1))

instance {T : Type} (r : Registry T) : Decidable (StateKeysMatch r) :=
  inferInstanceAs (Decidable (∀ p ∈ r.states, p.2.Name = p.1))

instance {T : Type} (r : Registry T) : Decidable (ChainClosed r) :=
  inferInstanceAs (Decidable (∀ p ∈ r.states, ∀ st ∈ stateChain p.2,
    alookup r.states st.Name = some st))

/-! Concrete fixtures used by the witness and counterexample theorems. -/

def wRoot : State := NewState "Root" none

def wChild : State := NewState "Child" (some wRoot)

/-- A state distinct from `wChild` but with the same name, to exercise the
by-name (not by-pointer) comparison in `Execute`. -/
def wAlias : State := NewState "Child" none

def hInc : CommandHandlerFunc Nat :=
  fun v _ => ⟨v.Data + 1, ⟨"ok", none⟩, none⟩

def hGo : CommandHandlerFunc Nat :=
  fun v _ => ⟨v.Data, ⟨"go", some wRoot⟩, none⟩

def hStay : CommandHandlerFunc Nat :=
  fun v _ => ⟨v.Data, ⟨"stay", some wAlias⟩, none⟩

def hFail : CommandHandlerFunc Nat :=
  fun v _ => ⟨v.Data + 7, ⟨"partial", some wRoot⟩, some "boom"⟩

def wReg : Registry Nat :=
  RegisterCommand
    (RegisterCommand
      (RegisterCommand
        (RegisterCommand (RegisterState (NewRegistry Nat) (some wChild))
          wRoot ⟨"inc", "", ""⟩ hInc)
        wRoot ⟨"go", "", ""⟩ hGo)
      wChild ⟨"stay", "", ""⟩ hStay)
    wChild ⟨"fail", "", ""⟩ hFail

def wMachine : Machine Nat := (NewMachine wReg (some wChild) 0).1

def emptyReg : Registry Nat := NewRegistry Nat

def loneState : State := NewState "Lone" none

def loneMachine : Machine Nat := (NewMachine emptyReg (some loneState) 5).1

def nilMachine : Machine Nat := (NewMachine emptyReg none 0).1

/-! Helper lemmas about the association-list primitives. -/

theorem alookup_ainsert_self {α : Type} (l : List (String × α)) (k : String) (v : α) :
    alookup (ainsert l k v) k = some v := by
  induction l with
  | nil => simp [ainsert, alookup]
  | cons p t ih =>
      obtain ⟨k', w⟩ := p
      by_cases h : k' = k
      · simp [ainsert, h, alookup]
      · simp [ainsert, h, alookup, ih]

theorem alookup_ainsert_ne {α : Type} (l : List (String × α)) (k k' : String) (v : α)
    (h : k' ≠ k) : alookup (ainsert l k v) k' = alookup l k' := by
  induction l with
  | nil => simp [ainsert, alookup, Ne.symm h]
  | cons p t ih =>
      obtain ⟨k₀, w⟩ := p
      by_cases hk : k₀ = k
      · subst hk
        simp [ainsert, alookup, Ne.symm h]
      · simp [ainsert, hk, alookup, ih]

theorem alookup_mem {α : Type} (l : List (String × α)) (k : String) (v : α)
    (h : alookup l k = some v) : (k, v) ∈ l := by
  induction l with
  | nil => simp [alookup] at h
  | cons p t ih =>
      obtain ⟨k', w⟩ := p
      by_cases hk : k' = k
      · subst hk
        simp [alookup] at h
        simp [h]
      · simp [alookup, hk] at h
        simp [ih h]

theorem alookup_eq_none_iff {α : Type} (l : List (String × α)) (k : String) :
    alookup l k = none ↔ ∀ p ∈ l, p.1 ≠ k := by
  induction l with
  | nil => simp [alookup]
  | cons p t ih =>
      obtain ⟨k', w⟩ := p
      by_cases hk : k' = k
      · subst hk
        simp [alookup]
      · simp [alookup, hk, ih]

theorem mem_ainsert {α : Type} (l : List (String × α)) (k : String) (v : α) (p : String × α)
    (h : p ∈ ainsert l k v) : p = (k, v) ∨ p ∈ l := by
  induction l with
  | nil => simpa [ainsert] using h
  | cons q t ih =>
      obtain ⟨k₀, w⟩ := q
      by_cases hk : k₀ = k
      · subst hk
        simp [ainsert] at h
        rcases h with h | h
        · exact Or.inl (by simp [h])
        · exact Or.inr (by simp [h])
      · simp [ainsert, hk] at h
        rcases h with h | h
        · exact Or.inr (by simp [h])
        · rcases ih h with h' | h'
          · exact Or.inl h'
          · exact Or.inr (by simp [h'])

/-! Helper lemmas about chains and lookup. -/

theorem stateChain_eq (s : State) : stateChain s = s :: chainOf s.Parent := by
  cases s <;> simp [stateChain, chainOf, State.Parent]

theorem chainOf_some (s : State) : chainOf (some s) = s :: chainOf s.Parent := by
  simpa [chainOf] using stateChain_eq s

theorem findCommandHandler_some {T : Type} (r : Registry T) (s : State) (c : String) :
    findCommandHandler r (some s) c =
      match bindingAt r s c with
      | some rc => some rc.Handler
      | none => findCommandHandler r s.Parent c := by
  cases s with
  | root n => cases h : bindingAt r (.root n) c <;>
      simp [findCommandHandler, findFromState, State.Parent, h]
  | child n p => cases h : bindingAt r (.child n p) c <;>
      simp [findCommandHandler, findFromState, State.Parent, h]

theorem findCommandHandler_eq_chainFind {T : Type} (r : Registry T) (os : Option State)
    (c : String) :
    findCommandHandler r os c = (chainFind r os c).map RegisteredCommand.Handler := by
  match os with
  | none => simp [findCommandHandler, chainFind, chainOf]
  | some s =>
      induction s with
      | root n =>
          rw [findCommandHandler_some]
          cases h : bindingAt r (.root n) c <;>
            simp [chainFind, chainOf, stateChain, List.findSome?_cons, h, State.Parent,
              findCommandHandler]
      | child n p ih =>
          rw [findCommandHandler_some]
          cases h : bindingAt r (.child n p) c <;>
            simp [chainFind, chainOf, stateChain, List.findSome?_cons, h, State.Parent, ih]

theorem chainFind_eq_none_iff {T : Type} (r : Registry T) (os : Option State) (c : String) :
    chainFind r os c = none ↔ ∀ st ∈ chainOf os, bindingAt r st c = none := by
  simp [chainFind]

/-! Helper lemmas unfolding `Execute` branch by branch. -/

theorem Execute_not_found {T : Type} (m : Machine T) (cmd : Command) (cs : State)
    (hcs : m.CurrentState = some cs)
    (hf : findCommandHandler m.registry m.CurrentState cmd.name = none) :
    Execute m cmd = some (m, "", some (.commandNotAvailable cmd.name cs.Name)) := by
  obtain ⟨ocs, stack, data, reg⟩ := m
  obtain rfl : ocs = some cs := hcs
  have hf' : findCommandHandler reg (some cs) cmd.name = none := hf
  simp [Execute, hf']

theorem Execute_handler_error {T : Type} (m : Machine T) (cmd : Command)
    (handler : CommandHandlerFunc T) (e : String)
    (hf : findCommandHandler m.registry m.CurrentState cmd.name = some handler)
    (he : (handler m.view cmd).error = some e) :
    Execute m cmd = some ({ m with Data := (handler m.view cmd).data },
      (handler m.view cmd).result.Output, some (.handlerFailure e)) := by
  simp [Execute, hf, he]

theorem Execute_success_no_next {T : Type} (m : Machine T) (cmd : Command)
    (handler : CommandHandlerFunc T)
    (hf : findCommandHandler m.registry m.CurrentState cmd.name = some handler)
    (he : (handler m.view cmd).error = none)
    (hn : (handler m.view cmd).result.NextState = none) :
    Execute m cmd = some ({ m with Data := (handler m.view cmd).data },
      (handler m.view cmd).result.Output, none) := by
  simp [Execute, hf, he, hn]

theorem Execute_success_same_name {T : Type} (m : Machine T) (cmd : Command) (cs : State)
    (handler : CommandHandlerFunc T) (ns : State)
    (hcs : m.CurrentState = some cs)
    (hf : findCommandHandler m.registry m.CurrentState cmd.name = some handler)
    (he : (handler m.view cmd).error = none)
    (hn : (handler m.view cmd).result.NextState = some ns)
    (hname : ns.Name = cs.Name) :
    Execute m cmd = some ({ m with Data := (handler m.view cmd).data },
      (handler m.view cmd).result.Output, none) := by
  obtain ⟨ocs, stack, data, reg⟩ := m
  obtain rfl : ocs = some cs := hcs
  have hf' : findCommandHandler reg (some cs) cmd.name = some handler := hf
  have he' : (handler ⟨some cs, stack, data⟩ cmd).error = none := he
  have hn' : (handler ⟨some cs, stack, data⟩ cmd).result.NextState = some ns := hn
  simp [Execute, Machine.view, hf', he', hn', hname]

theorem Execute_success_transition {T : Type} (m : Machine T) (cmd : Command) (cs : State)
    (handler : CommandHandlerFunc T) (ns : State)
    (hcs : m.CurrentState = some cs)
    (hf : findCommandHandler m.registry m.CurrentState cmd.name = some handler)
    (he : (handler m.view cmd).error = none)
    (hn : (handler m.view cmd).result.NextState = some ns)
    (hname : ns.Name ≠ cs.Name) :
    Execute m cmd = some (TransitionTo { m with Data := (handler m.view cmd).data } (some ns),
      (handler m.view cmd).result.Output, none) := by
  obtain ⟨ocs, stack, data, reg⟩ := m
  obtain rfl : ocs = some cs := hcs
  have hf' : findCommandHandler reg (some cs) cmd.name = some handler := hf
  have he' : (handler ⟨some cs, stack, data⟩ cmd).error = none := he
  have hn' : (handler ⟨some cs, stack, data⟩ cmd).result.NextState = some ns := hn
  simp [Execute, Machine.view, hf', he', hn', hname]

/-- C1: `findCommandHandler` walks the parent chain starting at the state
itself and returns the handler bound at the first (closest) ancestor that
has a binding for the command name — so a descendant's binding shadows an
ancestor's binding of the same name — and it returns not-found exactly when
no state of the chain up to and including the root has a binding. -/
theorem C1_find_command_handler_closest {T : Type} (r : Registry T) (os : Option State)
    (c : String) :
    findCommandHandler r os c = (chainFind r os c).map RegisteredCommand.Handler ∧
    (findCommandHandler r os c = none ↔ ∀ st ∈ chainOf os, bindingAt r st c = none) := by
  refine ⟨findCommandHandler_eq_chainFind r os c, ?_⟩
  rw [findCommandHandler_eq_chainFind, ← chainFind_eq_none_iff r os c]
  simp

/-- Witness for C1 at a concrete registry and chain. -/
theorem C1_witness :
    findCommandHandler wReg (some wChild) "inc" =
      (chainFind wReg (some wChild) "inc").map RegisteredCommand.Handler ∧
    (findCommandHandler wReg (some wChild) "inc" = none ↔
      ∀ st ∈ chainOf (some wChild), bindingAt wReg st "inc" = none) :=
  C1_find_command_handler_closest wReg (some wChild) "inc"

/-- C2: when the resolved handler succeeds, `Execute` transitions — the path
is recomputed from the returned next state and the current state is updated
— exactly when the returned next state is non-empty and its name differs
from the current state's name; when it is empty or carries the current
state's name (even as a structurally different state value), the current
state and the state stack are left untouched.  The comparison is by name
only. -/
theorem C2_execute_transition_by_name {T : Type} (m : Machine T) (cmd : Command) (cs : State)
    (handler : CommandHandlerFunc T)
    (hcs : m.CurrentState = some cs)
    (hf : findCommandHandler m.registry m.CurrentState cmd.name = some handler)
    (he : (handler m.view cmd).error = none) :
    ∃ m', Execute m cmd = some (m', (handler m.view cmd).result.Output, none) ∧
      m'.Data = (handler m.view cmd).data ∧
      ((∃ ns, (handler m.view cmd).result.NextState = some ns ∧ ns.Name ≠ cs.Name) →
        m'.CurrentState = (handler m.view cmd).result.NextState ∧
        m'.StateStack = buildStatePath (handler m.view cmd).result.NextState) ∧
      ((∀ ns, (handler m.view cmd).result.NextState = some ns → ns.Name = cs.Name) →
        m'.CurrentState = m.CurrentState ∧ m'.StateStack = m.StateStack) := by
  cases hn : (handler m.view cmd).result.NextState with
  | none =>
      refine ⟨_, Execute_success_no_next m cmd handler hf he hn, rfl, ?_, fun _ => ⟨rfl, rfl⟩⟩
      rintro ⟨ns, hns, -⟩
      exact absurd hns (by simp)
  | some ns =>
      by_cases hname : ns.Name = cs.Name
      · refine ⟨_, Execute_success_same_name m cmd cs handler ns hcs hf he hn hname, rfl,
          ?_, fun _ => ⟨rfl, rfl⟩⟩
        rintro ⟨ns', hns', hne⟩
        cases hns'
        exact absurd hname hne
      · refine ⟨_, Execute_success_transition m cmd cs handler ns hcs hf he hn hname, rfl,
          ?_, ?_⟩
        · exact fun _ => ⟨rfl, rfl⟩
        · intro hall
          exact absurd (hall ns rfl) hname

/-- Witness for C2: the handler bound to `stay` returns a next state that is
a different state value with the current state's name, and no transition
happens. -/
theorem C2_witness :
    (wMachine.CurrentState = some wChild ∧
      findCommandHandler wMachine.registry wMachine.CurrentState "stay" = some hStay ∧
      (hStay wMachine.view (NewCommand "stay" [])).error = none) ∧
    ∃ m', Execute wMachine (NewCommand "stay" []) =
        some (m', (hStay wMachine.view (NewCommand "stay" [])).result.Output, none) ∧
      m'.Data = (hStay wMachine.view (NewCommand "stay" [])).data ∧
      ((∃ ns, (hStay wMachine.view (NewCommand "stay" [])).result.NextState = some ns ∧
          ns.Name ≠ wChild.Name) →
        m'.CurrentState = (hStay wMachine.view (NewCommand "stay" [])).result.NextState ∧
        m'.StateStack = buildStatePath (hStay wMachine.view (NewCommand "stay" [])).result.NextState) ∧
      ((∀ ns, (hStay wMachine.view (NewCommand "stay" [])).result.NextState = some ns →
          ns.Name = wChild.Name) →
        m'.CurrentState = wMachine.CurrentState ∧ m'.StateStack = wMachine.StateStack) :=
  ⟨⟨rfl, rfl, rfl⟩,
    C2_execute_transition_by_name wMachine (NewCommand "stay" []) wChild hStay rfl rfl rfl⟩

/-- C3: when no state of the current ancestor chain has a binding for the
command's name, `Execute` returns the command-not-available error carrying
both the command name and the current state's name, returns empty output,
and returns the machine itself — current state, state stack, data payload
and registry all unchanged. -/
theorem C3_execute_unknown_command {T : Type} (m : Machine T) (cmd : Command) (cs : State)
    (hcs : m.CurrentState = some cs)
    (hno : ∀ st ∈ chainOf m.CurrentState, bindingAt m.registry st cmd.name = none) :
    Execute m cmd = some (m, "", some (.commandNotAvailable cmd.name cs.Name)) := by
  apply Execute_not_found m cmd cs hcs
  rw [findCommandHandler_eq_chainFind]
  have h : chainFind m.registry m.CurrentState cmd.name = none :=
    (chainFind_eq_none_iff m.registry m.CurrentState cmd.name).mpr hno
  simp [h]

/-- Witness for C3 at a concrete machine and an unbound command name. -/
theorem C3_witness :
    (wMachine.CurrentState = some wChild ∧
      ∀ st ∈ chainOf wMachine.CurrentState, bindingAt wMachine.registry st "nope" = none) ∧
    Execute wMachine (NewCommand "nope" []) =
      some (wMachine, "", some (.commandNotAvailable "nope" "Child")) := by
  have hno : ∀ st ∈ chainOf wMachine.CurrentState, bindingAt wMachine.registry st "nope" = none := by
    intro st hst
    have hst' : st ∈ [wChild, wRoot] := hst
    rcases (by simpa using hst' : st = wChild ∨ st = wRoot) with h | h <;> subst h <;> rfl
  exact ⟨⟨rfl, hno⟩, C3_execute_unknown_command wMachine (NewCommand "nope" []) wChild rfl hno⟩

/-- C5: `NewMachineFromSnapshot` fails with the state-not-found error exactly
when the snapshot's state name is absent from the registry's state table;
when the name resolves, it restores the data payload verbatim and sets the
current state and the root-to-state path of the resolved state. -/
theorem C5_restore_from_snapshot {T : Type} (r : Registry T) (snapshot : Snapshot T) :
    (NewMachineFromSnapshot r snapshot = .error (.stateNotFound snapshot.CurrentStateName) ↔
      GetStateByName r snapshot.CurrentStateName = none) ∧
    (∀ st, GetStateByName r snapshot.CurrentStateName = some st →
      NewMachineFromSnapshot r snapshot =
        .ok ⟨some st, buildStatePath (some st), snapshot.Data, r⟩) := by
  constructor
  · cases h : GetStateByName r snapshot.CurrentStateName <;>
      simp [NewMachineFromSnapshot, h]
  · intro st h
    simp [NewMachineFromSnapshot, h]

/-- Witness for C5: restoring a registered and an unregistered name. -/
theorem C5_witness :
    ((NewMachineFromSnapshot wReg ⟨"Child", 3⟩ = .error (.stateNotFound "Child") ↔
      GetStateByName wReg "Child" = none) ∧
    (∀ st, GetStateByName wReg "Child" = some st →
      NewMachineFromSnapshot wReg ⟨"Child", 3⟩ =
        .ok ⟨some st, buildStatePath (some st), 3, wReg⟩)) ∧
    NewMachineFromSnapshot wReg ⟨"Ghost", 3⟩ = .error (.stateNotFound "Ghost") :=
  ⟨C5_restore_from_snapshot wReg ⟨"Child", 3⟩,
    ((C5_restore_from_snapshot wReg ⟨"Ghost", 3⟩).1).mpr rfl⟩

/-- C6: when the resolved handler fails, `Execute` returns the handler's
error verbatim together with whatever output text the handler produced,
keeps the handler's data-payload mutations (no rollback), and performs no
transition even when the failed result carries a non-empty next state. -/
theorem C6_execute_handler_failure {T : Type} (m : Machine T) (cmd : Command)
    (handler : CommandHandlerFunc T) (e : String)
    (hf : findCommandHandler m.registry m.CurrentState cmd.name = some handler)
    (he : (handler m.view cmd).error = some e) :
    ∃ m', Execute m cmd =
        some (m', (handler m.view cmd).result.Output, some (.handlerFailure e)) ∧
      m'.Data = (handler m.view cmd).data ∧
      m'.CurrentState = m.CurrentState ∧
      m'.StateStack = m.StateStack ∧
      m'.registry = m.registry :=
  ⟨_, Execute_handler_error m cmd handler e hf he, rfl, rfl, rfl, rfl⟩

/-- Witness for C6: the failing handler mutates the payload, produces partial
output and asks for a transition; the error and output are returned, the
mutation is kept, and no transition happens. -/
theorem C6_witness :
    (findCommandHandler wMachine.registry wMachine.CurrentState "fail" = some hFail ∧
      (hFail wMachine.view (NewCommand "fail" [])).error = some "boom") ∧
    ∃ m', Execute wMachine (NewCommand "fail" []) =
        some (m', (hFail wMachine.view (NewCommand "fail" [])).result.Output,
          some (.handlerFailure "boom")) ∧
      m'.Data = (hFail wMachine.view (NewCommand "fail" [])).data ∧
      m'.CurrentState = wMachine.CurrentState ∧
      m'.StateStack = wMachine.StateStack ∧
      m'.registry = wMachine.registry :=
  ⟨⟨rfl, rfl⟩, C6_execute_handler_failure wMachine (NewCommand "fail" []) hFail "boom" rfl rfl⟩

/-- C4 as stated is false: `NewMachine` performs no registration check, so a
machine can sit at a state whose name is absent from the registry; its
snapshot then fails to restore.  Concretely, `loneMachine` was built with
`NewMachine` on an empty registry at state `"Lone"`: its snapshot is
`("Lone", 5)` and restoring that snapshot on the machine's registry fails
with the state-not-found error. -/
theorem C4_counterexample :
    GetSnapshot loneMachine = some ⟨"Lone", 5⟩ ∧
    NewMachineFromSnapshot loneMachine.registry ⟨"Lone", 5⟩ =
      .error (.stateNotFound "Lone") :=
  ⟨rfl, rfl⟩

/-- C4 amended: for any machine whose current-state name is present in its
registry's state table, restoring the machine's snapshot on that registry
succeeds and yields a machine with the same current-state name and the same
data payload.  (`StateKeysMatch` records that the state table keys each
state by its own name, which holds for every registry built with
`RegisterState`.) -/
theorem C4_snapshot_roundtrip {T : Type} (m : Machine T) (cs : State)
    (hcs : m.CurrentState = some cs)
    (hk : StateKeysMatch m.registry)
    (hreg : (GetStateByName m.registry cs.Name).isSome) :
    ∃ snap m' cs', GetSnapshot m = some snap ∧
      NewMachineFromSnapshot m.registry snap = .ok m' ∧
      m'.CurrentState = some cs' ∧ cs'.Name = cs.Name ∧ m'.Data = m.Data := by
  obtain ⟨st, hst⟩ := Option.isSome_iff_exists.mp hreg
  refine ⟨⟨cs.Name, m.Data⟩, ⟨some st, buildStatePath (some st), m.Data, m.registry⟩, st,
    ?_, ?_, rfl, ?_, rfl⟩
  · simp [GetSnapshot, hcs]
  · simp [NewMachineFromSnapshot, hst]
  · exact hk _ (alookup_mem _ _ _ hst)

/-- Witness for the amended C4 on a concrete machine at a registered state. -/
theorem C4_witness :
    (wMachine.CurrentState = some wChild ∧ StateKeysMatch wMachine.registry ∧
      (GetStateByName wMachine.registry wChild.Name).isSome) ∧
    ∃ snap m' cs', GetSnapshot wMachine = some snap ∧
      NewMachineFromSnapshot wMachine.registry snap = .ok m' ∧
      m'.CurrentState = some cs' ∧ cs'.Name = wChild.Name ∧ m'.Data = wMachine.Data :=
  ⟨⟨rfl, by decide, by decide⟩,
    C4_snapshot_roundtrip wMachine wChild rfl (by decide) (by decide)⟩

/-- C9 as stated is false on its "including an absent/none state" part:
`NewMachine` with a nil initial state does succeed (nil error), but on the
resulting machine `GetSnapshot` dereferences the nil current-state pointer
(modelled as `none`), so it does not return a name/data pair. -/
theorem C9_counterexample :
    (NewMachine emptyReg none (0 : Nat)).2 = none ∧ GetSnapshot nilMachine = none :=
  ⟨rfl, rfl⟩

/-- C9 amended: `NewMachine` always succeeds (nil error) for every registry,
every initial state — registered or not, including nil — and every data
value; and on every machine constructed from a present (non-nil) initial
state, `GetSnapshot` can be called immediately and returns the current
state's name paired with the data payload.  (With a nil initial state the
source's `GetSnapshot` panics on a nil dereference; see the
counterexample.) -/
theorem C9_new_machine_always_succeeds {T : Type} (registry : Registry T)
    (initialState : Option State) (initialData : T) :
    (NewMachine registry initialState initialData).2 = none ∧
    (∀ s, initialState = some s →
      GetSnapshot (NewMachine registry initialState initialData).1 =
        some ⟨s.Name, initialData⟩) := by
  refine ⟨rfl, ?_⟩
  rintro s rfl
  simp [NewMachine, TransitionTo, GetSnapshot]

/-- Witness for the amended C9: snapshot immediately after construction at an
unregistered state on an unrelated registry. -/
theorem C9_witness :
    GetSnapshot (NewMachine emptyReg (some wChild) 42).1 = some ⟨"Child", 42⟩ :=
  (C9_new_machine_always_succeeds emptyReg (some wChild) 42).2 wChild rfl

/-! Helper lemmas for C10: lookup never reads the state table. -/

theorem findFromState_states {T : Type} (r : Registry T) (ss : List (String × State))
    (s : State) (c : String) :
    findFromState { r with states := ss } s c = findFromState r s c := by
  induction s with
  | root n => simp [findFromState, bindingAt]
  | child n p ih => simp [findFromState, bindingAt, ih]

theorem registerStateS_commandHandlers {T : Type} (r : Registry T) (s : State) :
    (registerStateS r s).commandHandlers = r.commandHandlers := by
  induction s generalizing r with
  | root n =>
      by_cases h : (alookup r.states n).isSome <;> simp [registerStateS, h]
  | child n p ih =>
      by_cases h : (alookup r.states n).isSome <;> simp [registerStateS, h, ih]

theorem bindingAt_register_self {T : Type} (r : Registry T) (a : State) (d : CommandDef)
    (handler : CommandHandlerFunc T) :
    bindingAt (RegisterCommand r a d handler) a d.Name = some ⟨d, handler⟩ := by
  simp [bindingAt, RegisterCommand, alookup_ainsert_self]

theorem chainFind_isSome_of_mem {T : Type} (r : Registry T) (os : Option State) (c : String)
    (st : State) (hmem : st ∈ chainOf os) (hb : (bindingAt r st c).isSome) :
    (chainFind r os c).isSome := by
  by_contra h
  have hn : chainFind r os c = none := Option.not_isSome_iff_eq_none.mp h
  have := (chainFind_eq_none_iff r os c).mp hn st hmem
  rw [this] at hb
  exact Bool.noConfusion hb

/-- C10: command dispatch is independent of state registration.  Replacing
the registry's state table changes no lookup, `RegisterState` never touches
the command-binding table, and a handler bound with `RegisterCommand` on a
state of the chain is found from that chain regardless of what (if
anything) was ever passed to `RegisterState` — resolution consults only the
binding table (keyed by state name) and the states' own parent pointers. -/
theorem C10_dispatch_independent_of_registration {T : Type} (r : Registry T)
    (ss : List (String × State)) (os : Option State) (c : String) :
    findCommandHandler { r with states := ss } os c = findCommandHandler r os c ∧
    (∀ os', (RegisterState r os').commandHandlers = r.commandHandlers) ∧
    (∀ a d handler, a ∈ chainOf os →
      (findCommandHandler (RegisterCommand r a d handler) os d.Name).isSome) := by
  refine ⟨?_, ?_, ?_⟩
  · cases os with
    | none => rfl
    | some s => exact findFromState_states r ss s c
  · intro os'
    cases os' with
    | none => rfl
    | some s => exact registerStateS_commandHandlers r s
  · intro a d handler ha
    rw [findCommandHandler_eq_chainFind]
    have hb : (bindingAt (RegisterCommand r a d handler) a d.Name).isSome := by
      rw [bindingAt_register_self]
      rfl
    have hs := chainFind_isSome_of_mem (RegisterCommand r a d handler) os d.Name a ha hb
    simpa using hs

/-- Witness for C10: a command bound on the current state of a registry whose
state table was never populated for that chain is still dispatched. -/
theorem C10_witness :
    wChild ∈ chainOf (some wChild) ∧
    (findCommandHandler (RegisterCommand emptyReg wChild ⟨"zap", "", ""⟩ hInc)
      (some wChild) "zap").isSome :=
  ⟨by decide,
    (C10_dispatch_independent_of_registration emptyReg [] (some wChild) "zap").2.2
      wChild ⟨"zap", "", ""⟩ hInc (by decide)⟩

/-! Helper lemmas for C7: the seen-set loop of `FindAvailableCommands`. -/

theorem collectEntries_seen_mono {T : Type} (l : List (String × RegisteredCommand T)) :
    ∀ (seen : List String) (x : String), x ∈ seen → x ∈ (collectEntries seen l).1 := by
  induction l with
  | nil => intro seen x hx; simpa [collectEntries] using hx
  | cons q t ih =>
      intro seen x hx
      obtain ⟨n, rc⟩ := q
      by_cases h : n ∈ seen
      · simpa [collectEntries, h] using ih seen x hx
      · simpa [collectEntries, h] using ih (n :: seen) x (List.mem_cons_of_mem n hx)

theorem collectEntries_seen_src {T : Type} (l : List (String × RegisteredCommand T)) :
    ∀ (seen : List String) (x : String), x ∈ (collectEntries seen l).1 →
      x ∈ seen ∨ ∃ q ∈ l, q.1 = x := by
  induction l with
  | nil => intro seen x hx; exact Or.inl (by simpa [collectEntries] using hx)
  | cons q t ih =>
      intro seen x hx
      obtain ⟨n, rc⟩ := q
      by_cases h : n ∈ seen
      · rcases ih seen x (by simpa [collectEntries, h] using hx) with h' | ⟨q', hq', he⟩
        · exact Or.inl h'
        · exact Or.inr ⟨q', List.mem_cons_of_mem _ hq', he⟩
      · rcases ih (n :: seen) x (by simpa [collectEntries, h] using hx) with h' | ⟨q', hq', he⟩
        · rcases List.mem_cons.mp h' with he' | hs
          · exact Or.inr ⟨(n, rc), List.mem_cons_self _ _, he'.symm⟩
          · exact Or.inl hs
        · exact Or.inr ⟨q', List.mem_cons_of_mem _ hq', he⟩

theorem collectEntries_key_seen {T : Type} (l : List (String × RegisteredCommand T)) :
    ∀ (seen : List String) (q : String × RegisteredCommand T), q ∈ l →
      q.1 ∈ (collectEntries seen l).1 := by
  induction l with
  | nil => intro seen q hq; simp at hq
  | cons q0 t ih =>
      intro seen q hq
      obtain ⟨n, rc⟩ := q0
      rcases List.mem_cons.mp hq with rfl | hq'
      · by_cases h : n ∈ seen
        · simpa [collectEntries, h] using collectEntries_seen_mono t seen n h
        · simpa [collectEntries, h] using
            collectEntries_seen_mono t (n :: seen) n (List.mem_cons_self _ _)
      · by_cases h : n ∈ seen
        · simpa [collectEntries, h] using ih seen q hq'
        · simpa [collectEntries, h] using ih (n :: seen) q hq'

theorem collectEntries_sound {T : Type} (l : List (String × RegisteredCommand T)) :
    ∀ (seen : List String) (d : CommandDef), d ∈ (collectEntries seen l).2 →
      ∃ k rc, k ∉ seen ∧ alookup l k = some rc ∧ rc.Def = d := by
  induction l with
  | nil => intro seen d hd; simp [collectEntries] at hd
  | cons q t ih =>
      intro seen d hd
      obtain ⟨n, rc⟩ := q
      by_cases h : n ∈ seen
      · obtain ⟨k, rc', hk, hl, hdef⟩ := ih seen d (by simpa [collectEntries, h] using hd)
        refine ⟨k, rc', hk, ?_, hdef⟩
        have hne : n ≠ k := fun he => hk (he ▸ h)
        simpa [alookup, hne] using hl
      · have hd' : d = rc.Def ∨ d ∈ (collectEntries (n :: seen) t).2 := by
          simpa [collectEntries, h] using hd
        rcases hd' with rfl | hd'
        · exact ⟨n, rc, h, by simp [alookup], rfl⟩
        · obtain ⟨k, rc', hk, hl, hdef⟩ := ih (n :: seen) d hd'
          have hkn : k ≠ n := fun he => hk (he ▸ List.mem_cons_self _ _)
          have hk' : k ∉ seen := fun hs => hk (List.mem_cons_of_mem _ hs)
          refine ⟨k, rc', hk', ?_, hdef⟩
          simpa [alookup, Ne.symm hkn] using hl

theorem collectEntries_complete {T : Type} (l : List (String × RegisteredCommand T)) :
    ∀ (seen : List String) (k : String) (rc : RegisteredCommand T),
      alookup l k = some rc → k ∉ seen → rc.Def ∈ (collectEntries seen l).2 := by
  induction l with
  | nil => intro seen k rc h _; simp [alookup] at h
  | cons q t ih =>
      intro seen k rc h hk
      obtain ⟨n, rc0⟩ := q
      by_cases hn : n = k
      · subst hn
        simp only [alookup, if_pos rfl] at h
        obtain rfl := Option.some_inj.mp h
        simp [collectEntries, hk]
      · have h' : alookup t k = some rc := by simpa [alookup, hn] using h
        by_cases hs : n ∈ seen
        · simpa [collectEntries, hs] using ih seen k rc h' hk
        · have hkns : k ∉ n :: seen := by
            intro hmem
            rcases List.mem_cons.mp hmem with he | hmem'
            · exact hn he.symm
            · exact hk hmem'
          simpa [collectEntries, hs] using
            List.mem_cons_of_mem rc0.Def (ih (n :: seen) k rc h' hkns)

theorem collectEntries_names_fresh {T : Type} (l : List (String × RegisteredCommand T))
    (hK : ∀ q ∈ l, q.2.Def.Name = q.1) (seen : List String) (d : CommandDef)
    (hd : d ∈ (collectEntries seen l).2) : d.Name ∉ seen := by
  obtain ⟨k, rc, hk, hl, hdef⟩ := collectEntries_sound l seen d hd
  have hkey := hK _ (alookup_mem _ _ _ hl)
  have : d.Name = k := by rw [← hdef, hkey]
  rw [this]
  exact hk

theorem collectEntries_names_seen {T : Type} (l : List (String × RegisteredCommand T))
    (hK : ∀ q ∈ l, q.2.Def.Name = q.1) (seen : List String) (d : CommandDef)
    (hd : d ∈ (collectEntries seen l).2) : d.Name ∈ (collectEntries seen l).1 := by
  obtain ⟨k, rc, hk, hl, hdef⟩ := collectEntries_sound l seen d hd
  have hkey := hK _ (alookup_mem _ _ _ hl)
  have he : d.Name = k := by rw [← hdef, hkey]
  rw [he]
  exact collectEntries_key_seen l seen _ (alookup_mem _ _ _ hl)

theorem collectEntries_names_nodup {T : Type} (l : List (String × RegisteredCommand T)) :
    ∀ (seen : List String), (∀ q ∈ l, q.2.Def.Name = q.1) →
      (((collectEntries seen l).2).map CommandDef.Name).Nodup := by
  induction l with
  | nil => intro seen hK; simp [collectEntries]
  | cons q t ih =>
      intro seen hK
      obtain ⟨n, rc⟩ := q
      have hKt : ∀ q ∈ t, q.2.Def.Name = q.1 := fun q hq => hK q (List.mem_cons_of_mem _ hq)
      by_cases h : n ∈ seen
      · simpa [collectEntries, h] using ih seen hKt
      · have hrc : rc.Def.Name = n := hK (n, rc) (List.mem_cons_self _ _)
        have htail := ih (n :: seen) hKt
        have hnot : rc.Def.Name ∉ ((collectEntries (n :: seen) t).2).map CommandDef.Name := by
          intro hmem
          obtain ⟨d, hd, hde⟩ := List.mem_map.mp hmem
          have hfr := collectEntries_names_fresh t hKt (n :: seen) d hd
          rw [hde, hrc] at hfr
          exact hfr (List.mem_cons_self _ _)
        simpa [collectEntries, h] using List.nodup_cons.mpr ⟨hnot, htail⟩

/-! Helper lemmas for C8: `RegisterState` closes registries under parents. -/

theorem registerStateS_stop {T : Type} (r : Registry T) (s : State)
    (h : (alookup r.states s.Name).isSome) : registerStateS r s = r := by
  cases s with
  | root n =>
      simp only [State.Name] at h
      simp [registerStateS, h]
  | child n p =>
      simp only [State.Name] at h
      simp [registerStateS, h]

theorem registerStateS_mono {T : Type} (s : State) :
    ∀ (r : Registry T) (n : String) (v : State), alookup r.states n = some v →
      alookup (registerStateS r s).states n = some v := by
  induction s with
  | root n0 =>
      intro r n v hv
      by_cases h : (alookup r.states n0).isSome
      · simp [registerStateS, h, hv]
      · have hne : n ≠ n0 := by
          intro he
          subst he
          exact h (Option.isSome_iff_exists.mpr ⟨v, hv⟩)
        simp [registerStateS, h, alookup_ainsert_ne r.states n0 n _ hne, hv]
  | child n0 p ih =>
      intro r n v hv
      by_cases h : (alookup r.states n0).isSome
      · simp [registerStateS, h, hv]
      · have hne : n ≠ n0 := by
          intro he
          subst he
          exact h (Option.isSome_iff_exists.mpr ⟨v, hv⟩)
        have h1 : alookup (ainsert r.states n0 (State.child n0 p)) n = some v := by
          rw [alookup_ainsert_ne r.states n0 n _ hne]
          exact hv
        simp only [registerStateS, h, if_neg]
        simpa [registerStateS, h] using ih { r with states := ainsert r.states n0 (.child n0 p) } n v h1

theorem registerStateS_chain {T : Type} (r0 : Registry T) (h0 : ChainClosed r0) (s : State) :
    ∀ (r : Registry T),
      (∀ st ∈ stateChain s, ∀ v, alookup r0.states st.Name = some v → v = st) →
      ((stateChain s).map State.Name).Nodup →
      (∀ n v, alookup r0.states n = some v → alookup r.states n = some v) →
      (∀ st ∈ stateChain s, (alookup r.states st.Name).isSome →
        (alookup r0.states st.Name).isSome) →
      ∀ st ∈ stateChain s, alookup (registerStateS r s).states st.Name = some st := by
  induction s with
  | root n =>
      intro r hB hN hMono hFresh st hst
      have hst' : st = State.root n := by simpa [stateChain] using hst
      subst hst'
      by_cases h : (alookup r.states n).isSome
      · rw [registerStateS_stop r (State.root n) h]
        have h0s := hFresh (State.root n) (by simp [stateChain]) h
        obtain ⟨v, hv⟩ := Option.isSome_iff_exists.mp h0s
        have hveq : v = State.root n := hB (State.root n) (by simp [stateChain]) v hv
        subst hveq
        exact hMono _ _ hv
      · simpa [registerStateS, h, State.Name] using
          alookup_ainsert_self r.states n (State.root n)
  | child n p ih =>
      intro r hB hN hMono hFresh st hst
      by_cases h : (alookup r.states n).isSome
      · rw [registerStateS_stop r (State.child n p) h]
        have h0s := hFresh (State.child n p) (by simp [stateChain]) h
        obtain ⟨v, hv⟩ := Option.isSome_iff_exists.mp h0s
        have hveq : v = State.child n p := hB (State.child n p) (by simp [stateChain]) v hv
        subst hveq
        have hmem := alookup_mem _ _ _ hv
        have hcl := h0 _ hmem
        exact hMono _ _ (hcl st hst)
      · have hred : registerStateS r (State.child n p) =
            registerStateS { r with states := ainsert r.states n (State.child n p) } p := by
          simp [registerStateS, h]
        rw [hred]
        have hNsplit : n ∉ (stateChain p).map State.Name ∧
            ((stateChain p).map State.Name).Nodup := by
          simpa [stateChain, State.Name] using hN
        rcases (by simpa [stateChain] using hst :
            st = State.child n p ∨ st ∈ stateChain p) with rfl | hsttail
        · have h1 : alookup (ainsert r.states n (State.child n p)) n =
              some (State.child n p) := alookup_ainsert_self _ _ _
          simpa [State.Name] using
            registerStateS_mono p { r with states := ainsert r.states n (.child n p) } n _ h1
        · have hB' : ∀ st' ∈ stateChain p, ∀ v, alookup r0.states st'.Name = some v → v = st' :=
            fun st' h' v hv => hB st' (by simp [stateChain, h']) v hv
          have hMono' : ∀ n' v, alookup r0.states n' = some v →
              alookup (ainsert r.states n (State.child n p)) n' = some v := by
            intro n' v hv
            by_cases hne : n' = n
            · subst hne
              exact absurd (Option.isSome_iff_exists.mpr ⟨v, hMono _ _ hv⟩) h
            · rw [alookup_ainsert_ne r.states n n' _ hne]
              exact hMono _ _ hv
          have hFresh' : ∀ st' ∈ stateChain p,
              (alookup (ainsert r.states n (State.child n p)) st'.Name).isSome →
              (alookup r0.states st'.Name).isSome := by
            intro st' h' hs
            have hne : st'.Name ≠ n := by
              intro he
              exact hNsplit.1 (he ▸ List.mem_map_of_mem State.Name h')
            rw [alookup_ainsert_ne r.states n st'.Name _ hne] at hs
            exact hFresh st' (by simp [stateChain, h']) hs
          exact ih { r with states := ainsert r.states n (.child n p) }
            hB' hNsplit.2 hMono' hFresh' st hsttail

/-- C8: `RegisterState` on nil is a no-op, `RegisterState` on a state whose
name is already registered is a no-op, and — for registries obeying the
spec's name-as-identity discipline (`ChainClosed`, states keyed to
themselves, and no duplicate names along the new chain) — after
`RegisterState(S)` every state of S's chain, S itself and all its
transitive ancestors, is present in the registry's state set. -/
theorem C8_register_state_closure {T : Type} (r : Registry T) (s : State)
    (h0 : ChainClosed r)
    (hB : ∀ st ∈ stateChain s, ∀ p ∈ r.states, p.1 = st.Name → p.2 = st)
    (hN : ((stateChain s).map State.Name).Nodup) :
    RegisterState r none = r ∧
    ((alookup r.states s.Name).isSome → RegisterState r (some s) = r) ∧
    (∀ st ∈ stateChain s, alookup (RegisterState r (some s)).states st.Name = some st) := by
  refine ⟨rfl, ?_, ?_⟩
  · intro h
    exact registerStateS_stop r s h
  · have hB' : ∀ st ∈ stateChain s, ∀ v, alookup r.states st.Name = some v → v = st :=
      fun st hst v hv => hB st hst (st.Name, v) (alookup_mem _ _ _ hv) rfl
    exact registerStateS_chain r h0 s r hB' hN (fun n v hv => hv) (fun st hst hs => hs)

/-- Witness for C8: registering a two-level chain into the empty registry. -/
theorem C8_witness :
    (ChainClosed emptyReg ∧
      (∀ st ∈ stateChain wChild, ∀ p ∈ emptyReg.states, p.1 = st.Name → p.2 = st) ∧
      ((stateChain wChild).map State.Name).Nodup) ∧
    (RegisterState emptyReg none = emptyReg ∧
      ((alookup emptyReg.states wChild.Name).isSome →
        RegisterState emptyReg (some wChild) = emptyReg) ∧
      (∀ st ∈ stateChain wChild,
        alookup (RegisterState emptyReg (some wChild)).states st.Name = some st)) :=
  ⟨⟨by decide, by decide, by decide⟩,
    C8_register_state_closure emptyReg wChild (by decide) (by decide) (by decide)⟩

/-! Chain-level lemmas for C7. -/

theorem bindingAt_eq_entries {T : Type} (r : Registry T) (s : State) (c : String) :
    bindingAt r s c = alookup (entriesAt r s) c :=
  rfl

theorem KeysMatch.entries {T : Type} (r : Registry T) (hK : KeysMatch r) (s : State) :
    ∀ q ∈ entriesAt r s, q.2.Def.Name = q.1 := by
  intro q hq
  cases h : alookup r.commandHandlers s.Name with
  | none => simp [entriesAt, h] at hq
  | some inner =>
      have hq' : q ∈ inner := by simpa [entriesAt, h] using hq
      exact hK _ (alookup_mem _ _ _ h) q hq'

theorem collectAvailableS_eq {T : Type} (r : Registry T) (s : State) (seen : List String) :
    collectAvailableS r s seen =
      (collectEntries seen (entriesAt r s)).2 ++
        collectAvailable r s.Parent (collectEntries seen (entriesAt r s)).1 := by
  cases s <;> simp [collectAvailableS, collectAvailable, State.Parent, State.Name, entriesAt]

theorem chainFind_hit {T : Type} (r : Registry T) (s : State) (c : String)
    (rc : RegisteredCommand T) (h : bindingAt r s c = some rc) :
    chainFind r (some s) c = some rc := by
  simp [chainFind, chainOf_some, List.findSome?_cons, h]

theorem chainFind_miss {T : Type} (r : Registry T) (s : State) (c : String)
    (h : bindingAt r s c = none) :
    chainFind r (some s) c = chainFind r s.Parent c := by
  simp [chainFind, chainOf_some, List.findSome?_cons, h]

theorem collect_fresh_binding {T : Type} (r : Registry T) (hK : KeysMatch r) (s : State)
    (seen : List String) (d : CommandDef)
    (hd : d ∈ (collectEntries seen (entriesAt r s)).2) :
    d.Name ∉ seen ∧ ∃ rc, bindingAt r s d.Name = some rc ∧ rc.Def = d := by
  obtain ⟨k, rc, hk, hl, hdef⟩ := collectEntries_sound _ seen d hd
  have hkey := KeysMatch.entries r hK s _ (alookup_mem _ _ _ hl)
  have hdn : d.Name = k := by rw [← hdef, hkey]
  refine ⟨by rw [hdn]; exact hk, rc, ?_, hdef⟩
  rw [bindingAt_eq_entries, hdn]
  exact hl

theorem collectAvailable_sound {T : Type} (r : Registry T) (hK : KeysMatch r) (s : State) :
    ∀ (seen : List String) (d : CommandDef), d ∈ collectAvailableS r s seen →
      d.Name ∉ seen ∧ (chainFind r (some s) d.Name).map RegisteredCommand.Def = some d := by
  induction s with
  | root n =>
      intro seen d hd
      rw [collectAvailableS_eq] at hd
      have hd' : d ∈ (collectEntries seen (entriesAt r (State.root n))).2 := by
        simpa [State.Parent, collectAvailable] using hd
      obtain ⟨hns, rc, hb, hdef⟩ := collect_fresh_binding r hK _ seen d hd'
      refine ⟨hns, ?_⟩
      rw [chainFind_hit r _ _ rc hb]
      simp [hdef]
  | child n p ih =>
      intro seen d hd
      rw [collectAvailableS_eq] at hd
      rcases List.mem_append.mp hd with hd' | hd'
      · obtain ⟨hns, rc, hb, hdef⟩ := collect_fresh_binding r hK _ seen d hd'
        refine ⟨hns, ?_⟩
        rw [chainFind_hit r _ _ rc hb]
        simp [hdef]
      · have hd'' : d ∈ collectAvailableS r p
            (collectEntries seen (entriesAt r (State.child n p))).1 := by
          simpa [State.Parent, collectAvailable] using hd'
        obtain ⟨hns1, hcf⟩ := ih _ d hd''
        constructor
        · intro hseen
          exact hns1 (collectEntries_seen_mono _ _ _ hseen)
        · have hb : bindingAt r (State.child n p) d.Name = none := by
            rw [bindingAt_eq_entries, alookup_eq_none_iff]
            intro q hq he
            exact hns1 (he ▸ collectEntries_key_seen _ seen q hq)
          rw [chainFind_miss r _ _ hb]
          simpa [State.Parent] using hcf

theorem collectAvailable_complete {T : Type} (r : Registry T) (s : State) :
    ∀ (seen : List String) (n0 : String) (rc : RegisteredCommand T),
      chainFind r (some s) n0 = some rc → n0 ∉ seen →
      rc.Def ∈ collectAvailableS r s seen := by
  induction s with
  | root n =>
      intro seen n0 rc hcf hn0
      cases hb : bindingAt r (State.root n) n0 with
      | some rc0 =>
          have heq : some rc0 = some rc := by
            rw [← chainFind_hit r _ n0 rc0 hb]
            exact hcf
          obtain rfl := Option.some_inj.mp heq
          rw [collectAvailableS_eq]
          refine List.mem_append.mpr (Or.inl ?_)
          exact collectEntries_complete _ seen n0 rc0 hb hn0
      | none =>
          rw [chainFind_miss r _ _ hb] at hcf
          simp [State.Parent, chainFind, chainOf] at hcf
  | child n p ih =>
      intro seen n0 rc hcf hn0
      cases hb : bindingAt r (State.child n p) n0 with
      | some rc0 =>
          have heq : some rc0 = some rc := by
            rw [← chainFind_hit r _ n0 rc0 hb]
            exact hcf
          obtain rfl := Option.some_inj.mp heq
          rw [collectAvailableS_eq]
          refine List.mem_append.mpr (Or.inl ?_)
          exact collectEntries_complete _ seen n0 rc0 hb hn0
      | none =>
          rw [chainFind_miss r _ _ hb] at hcf
          have hn1 : n0 ∉ (collectEntries seen (entriesAt r (State.child n p))).1 := by
            intro hmem
            rcases collectEntries_seen_src _ seen n0 hmem with h' | ⟨q, hq, he⟩
            · exact hn0 h'
            · have hb' : alookup (entriesAt r (State.child n p)) n0 = none := hb
              rw [alookup_eq_none_iff] at hb'
              exact hb' q hq he
          rw [collectAvailableS_eq]
          refine List.mem_append.mpr (Or.inr ?_)
          have hrec := ih _ n0 rc (by simpa [State.Parent] using hcf) hn1
          simpa [State.Parent, collectAvailable] using hrec

theorem collectAvailable_names_nodup {T : Type} (r : Registry T) (hK : KeysMatch r)
    (s : State) : ∀ seen : List String,
      ((collectAvailableS r s seen).map CommandDef.Name).Nodup := by
  induction s with
  | root n =>
      intro seen
      rw [collectAvailableS_eq]
      simpa [State.Parent, collectAvailable] using
        collectEntries_names_nodup _ seen (KeysMatch.entries r hK _)
  | child n p ih =>
      intro seen
      rw [collectAvailableS_eq, List.map_append]
      refine List.Nodup.append ?_ ?_ ?_
      · exact collectEntries_names_nodup _ seen (KeysMatch.entries r hK _)
      · simpa [State.Parent, collectAvailable] using
          ih (collectEntries seen (entriesAt r (State.child n p))).1
      · intro x hx1 hx2
        obtain ⟨d, hd, hdn⟩ := List.mem_map.mp hx1
        have h1 : d.Name ∈ (collectEntries seen (entriesAt r (State.child n p))).1 :=
          collectEntries_names_seen _ (KeysMatch.entries r hK _) seen d hd
        obtain ⟨d', hd', hdn'⟩ := List.mem_map.mp hx2
        have hd'' : d' ∈ collectAvailableS r p
            (collectEntries seen (entriesAt r (State.child n p))).1 := by
          simpa [State.Parent, collectAvailable] using hd'
        have hfr := (collectAvailable_sound r hK p _ d' hd'').1
        rw [hdn'] at hfr
        rw [hdn] at h1
        exact hfr h1

/-- C7: `FindAvailableCommands` returns, for each distinct command name
visible along the ancestor chain, the definition of the closest binding —
the same shadowing rule as lookup — with no two entries sharing a name, in
ascending lexicographic order of command name, independent of registration
or iteration order.  `KeysMatch` records that bindings are keyed by their
definition's name, which `RegisterCommand` guarantees. -/
theorem C7_available_commands_sorted {T : Type} (r : Registry T) (os : Option State)
    (hK : KeysMatch r) :
    List.Pairwise (fun a b : CommandDef => a.Name < b.Name) (FindAvailableCommands r os) ∧
    (∀ d ∈ FindAvailableCommands r os,
      (chainFind r os d.Name).map RegisteredCommand.Def = some d) ∧
    (∀ n, (chainFind r os n).isSome → ∃ d ∈ FindAvailableCommands r os, d.Name = n) := by
  have hperm : List.Perm (FindAvailableCommands r os) (collectAvailable r os []) :=
    List.perm_insertionSort cmdDefLe _
  have hsorted : List.Sorted cmdDefLe (FindAvailableCommands r os) :=
    List.sorted_insertionSort cmdDefLe _
  have hnodup0 : ((collectAvailable r os []).map CommandDef.Name).Nodup := by
    cases os with
    | none => simp [collectAvailable]
    | some s => exact collectAvailable_names_nodup r hK s []
  have hnodup : ((FindAvailableCommands r os).map CommandDef.Name).Nodup :=
    ((hperm.map CommandDef.Name).symm).nodup hnodup0
  refine ⟨?_, ?_, ?_⟩
  · have hne : List.Pairwise (fun a b : CommandDef => a.Name ≠ b.Name)
        (FindAvailableCommands r os) := List.pairwise_map.mp hnodup
    exact (List.Pairwise.and hsorted hne).imp (fun h => lt_of_le_of_ne h.1 h.2)
  · intro d hd
    have hd0 : d ∈ collectAvailable r os [] := hperm.mem_iff.mp hd
    cases os with
    | none => simp [collectAvailable] at hd0
    | some s => exact (collectAvailable_sound r hK s [] d hd0).2
  · intro n hn
    cases os with
    | none => simp [chainFind, chainOf] at hn
    | some s =>
        obtain ⟨rc, hrc⟩ := Option.isSome_iff_exists.mp hn
        have hmem := collectAvailable_complete r s [] n rc hrc (by simp)
        refine ⟨rc.Def, ?_, ?_⟩
        · exact hperm.mem_iff.mpr (by simpa [collectAvailable] using hmem)
        · obtain ⟨st, hst, hb⟩ := List.exists_of_findSome?_eq_some hrc
          exact KeysMatch.entries r hK st _ (alookup_mem _ _ _ hb)

/-- Witness for C7 at a concrete registry and chain. -/
theorem C7_witness :
    KeysMatch wReg ∧
    (List.Pairwise (fun a b : CommandDef => a.Name < b.Name)
        (FindAvailableCommands wReg (some wChild)) ∧
      (∀ d ∈ FindAvailableCommands wReg (some wChild),
        (chainFind wReg (some wChild) d.Name).map RegisteredCommand.Def = some d) ∧
      (∀ n, (chainFind wReg (some wChild) n).isSome →
        ∃ d ∈ FindAvailableCommands wReg (some wChild), d.Name = n)) :=
  ⟨by decide, C7_available_commands_sorted wReg (some wChild) (by decide)⟩

end Corehsm
